import Mathlib

/-!
Shallow embedding of `src/algorithm.ts` from the flashcard repository
(Modified-Leitner spaced repetition).

Conventions of the embedding:
* A JS `Set<Flashcard>` is modelled by its content, a `Finset Flashcard`.
* A JS `Map<number, Set<Flashcard>>` (the `BucketMap` type) is modelled by an
  association list `List (ℕ × Finset Flashcard)` in insertion order: JS `Map`
  iteration order is insertion order, which `update`'s scanning loop relies on.
  A JS `Map` never holds two entries with the same key; that representation
  invariant appears as a `KeysNodup` hypothesis where a proof needs it.
* JS day numbers and bucket numbers are non-negative integers, modelled by `ℕ`.
  `Math.max(0, b - 1)` on naturals is written `max 0 (b - 1)` (truncated
  subtraction makes the two agree with the JS integer computation).
* The JS number division in `computeProgress` is exact on the values involved;
  it is modelled by division in `ℚ`.
* Object identity of JS `Set` objects (aliasing between the caller's map and
  the map returned by `update`, freshness of the sets built by `toBucketSets`)
  is modelled separately by a heap of set references: see `Heap` below.
-/

/-- Modelled from the spec: the `Flashcard` class lives in `src/flashcards.ts`,
which is not part of the sources; per the spec's data model a card is an
immutable value with `front`, `back`, `hint` and a set of `tags`, compared by
value. -/
structure Flashcard where
  front : String
  back : String
  hint : String
  tags : List String
deriving DecidableEq, Repr

/-- Modelled from the spec: `AnswerDifficulty` (from `src/flashcards.ts`) is a
closed enumeration with exactly three variants. -/
inductive AnswerDifficulty where
  | Wrong
  | Hard
  | Easy
deriving DecidableEq, Repr

/-- Content-level model of the JS `BucketMap = Map<number, Set<Flashcard>>`,
as an association list in insertion order. -/
abbrev BucketMap := List (ℕ × Finset Flashcard)

/-- JS `Map.get(k)`: the value stored at key `k` (a JS `Map` has at most one
entry per key; on lists with duplicate keys this returns the first). -/
def mapGet (m : BucketMap) (k : ℕ) : Option (Finset Flashcard) :=
  match m with
  | [] => none
  | (b, s) :: rest => if b = k then some s else mapGet rest k

/-- The keys of the map, in insertion order. -/
def mapKeys (m : BucketMap) : List ℕ := m.map Prod.fst

/-- Representation invariant of a JS `Map`: one entry per key. -/
def KeysNodup (m : BucketMap) : Prop := (mapKeys m).Nodup

/-- `Math.max(...buckets.keys())` for a non-empty map, and
`Math.max(...buckets.keys(), 0)` in `computeProgress`: the largest key,
with `0` as the value on the empty map. -/
def maxKey (m : BucketMap) : ℕ := (mapKeys m).foldr max 0

/-- `toBucketSets` from `src/algorithm.ts` lines 21–29: empty map gives `[]`,
otherwise one entry per index `0..maxBucket`, the copied set when the key is
present and a fresh empty set otherwise (content level). -/
def toBucketSets (m : BucketMap) : List (Finset Flashcard) :=
  if m = [] then []
  else (List.range (maxKey m + 1)).map (fun i => (mapGet m i).getD ∅)

/-- `practice` from `src/algorithm.ts` lines 62–76: union the buckets `i`
other than the retired bucket `5` whose interval `2 ^ i` divides `day`. -/
def practice (buckets : List (Finset Flashcard)) (day : ℕ) : Finset Flashcard :=
  (List.range buckets.length).foldl
    (fun result i =>
      if i = 5 then result
      else if day % 2 ^ i = 0 then result ∪ buckets.getD i ∅ else result)
    ∅

/-- The `switch (difficulty)` of `update` (lines 107–117): the destination
bucket computed from the current bucket. -/
def nextBucket (currentBucket : ℕ) : AnswerDifficulty → ℕ
  | .Wrong => 0
  | .Easy => if currentBucket = 5 then currentBucket else currentBucket + 1
  | .Hard => max 0 (currentBucket - 1)

/-- The scanning loop of `update` (lines 95–102): the first entry whose set
contains the card, if any. -/
def findBucket (m : BucketMap) (card : Flashcard) : Option (ℕ × Finset Flashcard) :=
  match m with
  | [] => none
  | (b, s) :: rest => if card ∈ s then some (b, s) else findBucket rest card

/-- Effect of the scanning loop on the map content: delete the card from the
first set containing it, dropping the entry when that empties the set. -/
def removeCard (m : BucketMap) (card : Flashcard) : BucketMap :=
  match m with
  | [] => []
  | (b, s) :: rest =>
    if card ∈ s then
      if s.erase card = ∅ then rest else (b, s.erase card) :: rest
    else (b, s) :: removeCard rest card

/-- Lines 119–120 of `update`: `newMap.set(newBucket, new Set())` when the key
is absent (a JS `Map.set` on a new key appends it in insertion order),
then `newMap.get(newBucket)!.add(card)`. -/
def addCard (m : BucketMap) (b : ℕ) (card : Flashcard) : BucketMap :=
  match m with
  | [] => [(b, {card})]
  | (b2, s) :: rest =>
    if b2 = b then (b2, insert card s) :: rest
    else (b2, s) :: addCard rest b card

/-- `update` from `src/algorithm.ts` lines 87–122, at content level: the
content of the returned map. (The effect of the shallow `new Map(buckets)`
copy on the caller's set objects is modelled by `updateH` below.) -/
def update (m : BucketMap) (card : Flashcard) (difficulty : AnswerDifficulty) :
    BucketMap :=
  match findBucket m card with
  | none => m
  | some (currentBucket, _) =>
      addCard (removeCard m card) (nextBucket currentBucket difficulty) card

/-- The character class of the JS regular expression `\s` used on line 133. -/
def jsWhitespace (c : Char) : Bool :=
  let n := c.toNat
  n = 0x9 || n = 0xA || n = 0xB || n = 0xC || n = 0xD || n = 0x20 ||
  n = 0xA0 || n = 0x1680 || (0x2000 ≤ n && n ≤ 0x200A) ||
  n = 0x2028 || n = 0x2029 || n = 0x202F || n = 0x205F || n = 0x3000 ||
  n = 0xFEFF

/-- Line 133, `card.back.replace(/\s/g, '').split('')`: the characters of the
back text with the whitespace removed. -/
def stripBack (card : Flashcard) : List Char :=
  card.back.toList.filter (fun c => !jsWhitespace c)

/-- `getHint` from `src/algorithm.ts` lines 131–138: for a card tagged
`"language"`, strip whitespace from the back text and mask all but the first
character (`letters[0] + '_'.repeat(letters.length - 1)`); otherwise return
the stored hint verbatim. -/
def getHint (card : Flashcard) : String :=
  if card.tags.contains "language" then
    match stripBack card with
    | [] => ""
    | c0 :: rest => String.mk (c0 :: List.replicate rest.length '_')
  else card.hint

/-- A history entry `{card, date, difficulty}`; the timestamp is opaque to the
algorithm and modelled by a number. -/
structure HistoryEntry where
  card : Flashcard
  date : ℕ
  difficulty : AnswerDifficulty
deriving DecidableEq, Repr

/-- The record returned by `computeProgress`. -/
structure Progress where
  total : ℕ
  buckets : List ℕ
  averagePractices : ℚ
deriving DecidableEq, Repr

/-- The fold of lines 157–160 building `practiceCounts`: bump the count of one
card in the association list (insert at the end when absent, as `Map.set`
does). -/
def bumpCount (counts : List (Flashcard × ℕ)) (c : Flashcard) :
    List (Flashcard × ℕ) :=
  match counts with
  | [] => [(c, 1)]
  | (c2, n) :: rest =>
    if c2 = c then (c2, n + 1) :: rest else (c2, n) :: bumpCount rest c

/-- `practiceCounts` of `computeProgress`: per-card practice counts
accumulated over the history. -/
def practiceCounts (history : List HistoryEntry) : List (Flashcard × ℕ) :=
  history.foldl (fun acc e => bumpCount acc e.card) []

/-- `computeProgress` from `src/algorithm.ts` lines 148–164. The thrown
`Error` is modelled by `Except.error` carrying the message. -/
def computeProgress (buckets : BucketMap) (history : List HistoryEntry) :
    Except String Progress :=
  if history = [] then .error "History must not be empty"
  else
    let total := (buckets.map (fun p => p.2.card)).sum
    let maxBucket := maxKey buckets
    let bucketCounts :=
      (List.range (maxBucket + 1)).map (fun i =>
        ((mapGet buckets i).getD ∅).card)
    let totalPractices := ((practiceCounts history).map Prod.snd).sum
    let average : ℚ := if total = 0 then 0 else (totalPractices : ℚ) / (total : ℚ)
    .ok ⟨total, bucketCounts, average⟩

/-! ### Heap model of `Set` object identity

JS `Set` objects are mutable heap objects; `new Map(buckets)` copies only the
key-to-object table, so the copy and the original share their `Set` objects.
To settle the aliasing claims we model a heap: set objects are numbered
references, a map is a list of `(bucket, reference)` pairs, and every
`new Set(...)` allocates the next reference. -/

/-- A heap of `Set<Flashcard>` objects: `next` is the next fresh reference,
`store` gives each reference's current content. -/
structure Heap where
  next : ℕ
  store : ℕ → Finset Flashcard

/-- A `Map<number, Set<Flashcard>>` at heap level: buckets map to set
references. -/
abbrev RefMap := List (ℕ × ℕ)

/-- Write the content `s` to reference `r`. -/
def Heap.write (h : Heap) (r : ℕ) (s : Finset Flashcard) : Heap :=
  ⟨h.next, fun r2 => if r2 = r then s else h.store r2⟩

/-- Allocate a fresh set object with content `s` (`new Set(...)`). -/
def Heap.alloc (h : Heap) (s : Finset Flashcard) : ℕ × Heap :=
  (h.next, ⟨h.next + 1, fun r2 => if r2 = h.next then s else h.store r2⟩)

/-- JS `Map.get` at heap level: the reference stored at a key. -/
def refGet (m : RefMap) (k : ℕ) : Option ℕ :=
  match m with
  | [] => none
  | (b, r) :: rest => if b = k then some r else refGet rest k

/-- JS `Map.delete(b)` at heap level. -/
def refDelete (m : RefMap) (b : ℕ) : RefMap :=
  m.filter (fun p => decide (p.1 ≠ b))

/-- The scanning loop of `update` at heap level: first entry whose set object
currently contains the card. -/
def findCardRef (h : Heap) (m : RefMap) (card : Flashcard) : Option (ℕ × ℕ) :=
  match m with
  | [] => none
  | (b, r) :: rest =>
    if card ∈ h.store r then some (b, r) else findCardRef h rest card

/-- The observable content of a map: each bucket with the current content of
its set object. -/
def observe (h : Heap) (m : RefMap) : BucketMap :=
  m.map (fun p => (p.1, h.store p.2))

/-- `update` from `src/algorithm.ts` lines 87–122 at heap level, returning
the new map together with the heap after the call. `new Map(buckets)` shares
set references with `m`; `cards.delete(card)` and
`newMap.get(newBucket)!.add(card)` write through those shared references. -/
def updateH (h : Heap) (m : RefMap) (card : Flashcard)
    (difficulty : AnswerDifficulty) : RefMap × Heap :=
  let newMap := m
  match findCardRef h newMap card with
  | none => (newMap, h)
  | some (currentBucket, r) =>
    let h1 := h.write r ((h.store r).erase card)
    let newMap1 := if h1.store r = ∅ then refDelete newMap currentBucket else newMap
    let nb := nextBucket currentBucket difficulty
    match refGet newMap1 nb with
    | some r2 => (newMap1, h1.write r2 (insert card (h1.store r2)))
    | none =>
      let r2 := (h1.alloc ∅).1
      let h2 := (h1.alloc ∅).2
      (newMap1 ++ [(nb, r2)], h2.write r2 (insert card (h2.store r2)))

/-- Allocate one fresh set object per listed content, left to right
(the repeated `new Set(...)` of the `toBucketSets` loop). -/
def allocList (h : Heap) (vals : List (Finset Flashcard)) : List ℕ × Heap :=
  match vals with
  | [] => ([], h)
  | s :: rest =>
    let rest2 := allocList (h.alloc s).2 rest
    ((h.alloc s).1 :: rest2.1, rest2.2)

/-- `toBucketSets` at heap level: each loop iteration pushes a freshly
allocated set (`new Set(buckets.get(i))` or `new Set()`). -/
def toBucketSetsH (h : Heap) (m : RefMap) : List ℕ × Heap :=
  if m = [] then ([], h)
  else
    allocList h ((List.range ((m.map Prod.fst).foldr max 0 + 1)).map (fun i =>
      match refGet m i with
      | some r => h.store r
      | none => ∅))

/-! ### Concrete values used by the examples in the spec -/

/-- The sample card used by the spec's worked examples (`cardX`). -/
def cardX : Flashcard := ⟨"Q", "A", "", []⟩

/-- A second sample card. -/
def cardY : Flashcard := ⟨"Q2", "A2", "", []⟩

/-! ### Derived quantities used by the claims -/

/-- Sum of the sizes of all card sets in a sparse mapping (the `total` of
`computeProgress`, and the quantity preserved by `toBucketSets`). -/
def sumSizes (m : BucketMap) : ℕ := (m.map (fun p => p.2.card)).sum

/-- Sum of the sizes of the card sets of a dense array. -/
def sumSizesArr (l : List (Finset Flashcard)) : ℕ := (l.map Finset.card).sum

/-- The spec's description of the practice numerator: the sum, over all
distinct cards appearing in the history, of how many times each appears. -/
def distinctPracticeSum (history : List HistoryEntry) : ℕ :=
  ((history.map (fun e => e.card)).dedup.map
    (fun c => (history.map (fun e => e.card)).count c)).sum

/-- The spec's description of `bucketCounts`: one per-bucket card count for
each index from `0` to the maximum occupied bucket index. -/
def bucketCountsSpec (m : BucketMap) : List ℕ :=
  (List.range (maxKey m + 1)).map (fun i => ((mapGet m i).getD ∅).card)

/-- The number of buckets of the mapping whose set contains the card. -/
def cardCount (m : BucketMap) (c : Flashcard) : ℕ :=
  m.countP (fun p => decide (c ∈ p.2))

/-- The spec's mapping invariant, together with the `Map` representation
invariant: one entry per bucket number, every present bucket non-empty, and
each card in at most one bucket. -/
def Invariant (m : BucketMap) : Prop :=
  KeysNodup m ∧ (∀ p ∈ m, p.2 ≠ ∅) ∧ ∀ c : Flashcard, cardCount m c ≤ 1

/-- A one-card heap for exercising `updateH`: set object `0` holds `cardX`,
the next fresh reference is `1`. -/
def heap0 : Heap := ⟨1, fun r => if r = 0 then ({cardX} : Finset Flashcard) else ∅⟩

/-- The caller's mapping for the `updateH` run: bucket `0` holds set object
`0`. -/
def refMap0 : RefMap := [(0, 0)]

/-! ### Helper lemmas -/

theorem findBucket_eq_none (m : BucketMap) (card : Flashcard)
    (h : ∀ p ∈ m, card ∉ p.2) : findBucket m card = none := by
  induction m with
  | nil => rfl
  | cons p t ih =>
    obtain ⟨b, s⟩ := p
    have hb : card ∉ s := h (b, s) (List.mem_cons_self _ _)
    simp only [findBucket, hb, if_false]
    exact ih (fun q hq => h q (List.mem_cons_of_mem _ hq))

theorem getD_range_map {α : Type} (f : ℕ → α) (n i : ℕ) (d : α) (hi : i < n) :
    ((List.range n).map f).getD i d = f i := by
  rw [List.getD_eq_getElem?_getD]
  simp [List.getElem?_range, hi]

theorem le_foldr_max (l : List ℕ) (x : ℕ) (hx : x ∈ l) : x ≤ l.foldr max 0 := by
  induction l with
  | nil => cases hx
  | cons a t ih =>
    rcases List.mem_cons.mp hx with rfl | hx2
    · exact le_max_left _ _
    · exact le_trans (ih hx2) (le_max_right _ _)

/-! ### C7: unbucketed card is a tolerated no-op -/

/-- C7. For every sparse bucket mapping `m`, every card not contained in any
bucket of `m`, and every difficulty, `update` returns the mapping unchanged
(and, being a total function of the embedding, raises no error). -/
theorem c7_update_unbucketed_noop (m : BucketMap) (card : Flashcard)
    (d : AnswerDifficulty) (h : ∀ p ∈ m, card ∉ p.2) :
    update m card d = m := by
  unfold update
  rw [findBucket_eq_none m card h]

/-- Witness for C7 at a concrete input. -/
theorem c7_witness :
    update [(0, {cardX})] cardY AnswerDifficulty.Easy = [(0, {cardX})] :=
  c7_update_unbucketed_noop _ _ _ (by decide)

/-! ### C8: hint generation -/

/-- C8. A card whose tags contain `"language"` gets a masked hint: whitespace
is stripped from the back text; if nothing remains the hint is empty;
otherwise the hint has the same length as the stripped text, starts with its
first character, and every later character is the mask `'_'`. A card whose
tags do not contain `"language"` gets its stored hint verbatim; the spec's
example `back = "test"` yields `"t___"`. -/
theorem c8_getHint_spec :
    (∀ card : Flashcard, "language" ∈ card.tags →
      (stripBack card = [] → getHint card = "")
      ∧ ∀ c0 rest, stripBack card = c0 :: rest →
          (getHint card).toList.length = (c0 :: rest).length
          ∧ (getHint card).toList.head? = some c0
          ∧ ∀ ch ∈ (getHint card).toList.tail, ch = '_')
    ∧ (∀ card : Flashcard, "language" ∉ card.tags → getHint card = card.hint)
    ∧ getHint ⟨"", "test", "", ["language"]⟩ = "t___" := by
  refine ⟨?_, ?_, by decide⟩
  · intro card htag
    constructor
    · intro hnil
      simp [getHint, htag, hnil]
    · intro c0 rest hcons
      have hg : getHint card = String.mk (c0 :: List.replicate rest.length '_') := by
        simp only [getHint, hcons]
        rw [if_pos (by simpa using htag)]
      rw [hg]
      refine ⟨by simp, rfl, ?_⟩
      intro ch hch
      have : ch ∈ List.replicate rest.length '_' := by
        simpa using hch
      exact List.eq_of_mem_replicate this
  · intro card htag
    unfold getHint
    rw [if_neg (by simpa using htag)]

/-- Witness for C8 at concrete inputs. -/
theorem c8_witness :
    (getHint ⟨"", "a b", "", ["language"]⟩).toList.head? = some 'a'
    ∧ getHint ⟨"", "x", "stored", ["math"]⟩ = "stored" := by
  constructor
  · exact ((c8_getHint_spec.1 ⟨"", "a b", "", ["language"]⟩ (by simp)).2
      'a' ['b'] (by decide)).2.1
  · exact c8_getHint_spec.2.1 ⟨"", "x", "stored", ["math"]⟩ (by decide)

/-! ### C4: the scheduler -/

theorem practice_foldl_mem (bs : List (Finset Flashcard)) (day : ℕ)
    (l : List ℕ) (acc : Finset Flashcard) (c : Flashcard) :
    c ∈ l.foldl (fun result i =>
        if i = 5 then result
        else if day % 2 ^ i = 0 then result ∪ bs.getD i ∅ else result) acc
      ↔ c ∈ acc ∨ ∃ i ∈ l, i ≠ 5 ∧ day % 2 ^ i = 0 ∧ c ∈ bs.getD i ∅ := by
  induction l generalizing acc with
  | nil => simp
  | cons j t ih =>
    simp only [List.foldl_cons]
    by_cases hj : j = 5
    · subst hj
      rw [if_pos rfl, ih]
      simp only [List.mem_cons]
      constructor
      · rintro (hacc | ⟨i, hi, hne, hd, hc⟩)
        · exact Or.inl hacc
        · exact Or.inr ⟨i, Or.inr hi, hne, hd, hc⟩
      · rintro (hacc | ⟨i, rfl | hi, hne, hd, hc⟩)
        · exact Or.inl hacc
        · exact absurd rfl hne
        · exact Or.inr ⟨i, hi, hne, hd, hc⟩
    · rw [if_neg hj]
      by_cases hd : day % 2 ^ j = 0
      · rw [if_pos hd, ih]
        simp only [Finset.mem_union, List.mem_cons]
        constructor
        · rintro ((hacc | hcj) | ⟨i, hi, hine, hid, hic⟩)
          · exact Or.inl hacc
          · exact Or.inr ⟨j, Or.inl rfl, hj, hd, hcj⟩
          · exact Or.inr ⟨i, Or.inr hi, hine, hid, hic⟩
        · rintro (hacc | ⟨i, rfl | hi, hine, hid, hic⟩)
          · exact Or.inl (Or.inl hacc)
          · exact Or.inl (Or.inr hic)
          · exact Or.inr ⟨i, hi, hine, hid, hic⟩
      · rw [if_neg hd, ih]
        simp only [List.mem_cons]
        constructor
        · rintro (hacc | ⟨i, hi, hine, hid, hic⟩)
          · exact Or.inl hacc
          · exact Or.inr ⟨i, Or.inr hi, hine, hid, hic⟩
        · rintro (hacc | ⟨i, rfl | hi, hine, hid, hic⟩)
          · exact Or.inl hacc
          · exact absurd hid hd
          · exact Or.inr ⟨i, hi, hine, hid, hic⟩

/-- C4. `practice bs day` is exactly the union of the non-retired buckets
`i < bs.length` whose interval `2 ^ i` divides `day`; on any array of at
least 6 buckets, `practice bs 0` contains all of bucket 0 and, when the
retired bucket is disjoint from the other buckets (validity of the dense
representation), none of bucket 5. Arrays shorter than 6 buckets need no
special case: the union only ranges over existing indices. -/
theorem c4_practice_spec :
    (∀ bs day c, c ∈ practice bs day ↔
        ∃ i, i < bs.length ∧ i ≠ 5 ∧ day % 2 ^ i = 0 ∧ c ∈ bs.getD i ∅)
    ∧ (∀ bs : List (Finset Flashcard), 6 ≤ bs.length →
        ∀ c ∈ bs.getD 0 ∅, c ∈ practice bs 0)
    ∧ (∀ bs : List (Finset Flashcard), 6 ≤ bs.length →
        (∀ i, i < bs.length → i ≠ 5 → Disjoint (bs.getD 5 ∅) (bs.getD i ∅)) →
        ∀ c ∈ bs.getD 5 ∅, c ∉ practice bs 0) := by
  have hmain : ∀ bs day c, c ∈ practice bs day ↔
      ∃ i, i < bs.length ∧ i ≠ 5 ∧ day % 2 ^ i = 0 ∧ c ∈ bs.getD i ∅ := by
    intro bs day c
    unfold practice
    rw [practice_foldl_mem]
    simp [List.mem_range, and_assoc]
  refine ⟨hmain, ?_, ?_⟩
  · intro bs hlen c hc
    exact (hmain bs 0 c).mpr ⟨0, by omega, by decide, by decide, hc⟩
  · intro bs hlen hdisj c hc hmem
    obtain ⟨i, hi, hine, _, hic⟩ := (hmain bs 0 c).mp hmem
    exact absurd hic (Finset.disjoint_left.mp (hdisj i hi hine) hc)

/-- Witness for C4 at a concrete input. -/
theorem c4_witness :
    cardX ∈ practice [{cardX}, ∅, ∅, ∅, ∅, {cardY}] 0
    ∧ cardY ∉ practice [{cardX}, ∅, ∅, ∅, ∅, {cardY}] 0 := by
  constructor
  · exact c4_practice_spec.2.1 _ (by decide) cardX (by decide)
  · exact c4_practice_spec.2.2 _ (by decide) (by decide) cardY (by decide)

/-! ### C6 and C9: the dense conversion -/

theorem allocList_refs_ge (h : Heap) (vals : List (Finset Flashcard)) :
    ∀ r ∈ (allocList h vals).1, h.next ≤ r := by
  induction vals generalizing h with
  | nil => intro r hr; simp [allocList] at hr
  | cons s t ih =>
    intro r hr
    simp only [allocList] at hr
    rcases List.mem_cons.mp hr with rfl | hr2
    · exact Nat.le_refl _
    · have h1 := ih (h.alloc s).2 r hr2
      have h2 : (h.alloc s).2.next = h.next + 1 := rfl
      omega

/-- C6. `toBucketSets` of an empty mapping is empty; of a non-empty mapping
it has `maxKey + 1` entries, with each index holding the mapping's set for
that bucket (or an empty set when the bucket is absent); at heap level every
set object it returns is freshly allocated, never one of the source
mapping's set objects; and the spec's example holds. -/
theorem c6_toBucketSets_spec :
    toBucketSets [] = []
    ∧ (∀ m : BucketMap, m ≠ [] →
        (toBucketSets m).length = maxKey m + 1
        ∧ ∀ i, i ≤ maxKey m → (toBucketSets m).getD i ∅ = (mapGet m i).getD ∅)
    ∧ (∀ (h : Heap) (m : RefMap), (∀ p ∈ m, p.2 < h.next) →
        ∀ r ∈ (toBucketSetsH h m).1, ∀ p ∈ m, r ≠ p.2)
    ∧ toBucketSets [(2, {cardX})] = [∅, ∅, {cardX}] := by
  refine ⟨rfl, ?_, ?_, by decide⟩
  · intro m hm
    constructor
    · simp [toBucketSets, hm]
    · intro i hi
      unfold toBucketSets
      rw [if_neg hm]
      exact getD_range_map _ _ _ _ (by omega)
  · intro h m hlt r hr p hp
    unfold toBucketSetsH at hr
    have hm : m ≠ [] := by
      intro hnil
      subst hnil
      cases hp
    rw [if_neg hm] at hr
    have hge := allocList_refs_ge h _ r hr
    have := hlt p hp
    omega

/-- Witness for C6 at concrete inputs. -/
theorem c6_witness :
    (toBucketSets [(2, {cardX})]).length = maxKey [(2, {cardX})] + 1
    ∧ ∀ r ∈ (toBucketSetsH heap0 refMap0).1, ∀ p ∈ refMap0, r ≠ p.2 := by
  constructor
  · exact (c6_toBucketSets_spec.2.1 [(2, {cardX})] (by decide)).1
  · exact c6_toBucketSets_spec.2.2.1 heap0 refMap0 (by decide)

theorem mapGet_eq_none (m : BucketMap) (b : ℕ) (hb : b ∉ mapKeys m) :
    mapGet m b = none := by
  induction m with
  | nil => rfl
  | cons p t ih =>
    simp only [mapKeys, List.map_cons, List.mem_cons, not_or] at hb
    obtain ⟨hb1, hb2⟩ := hb
    obtain ⟨b2, s⟩ := p
    rw [mapGet, if_neg (fun h => hb1 h.symm)]
    exact ih (by simpa [mapKeys] using hb2)

theorem sum_range_if (g : ℕ → ℕ) (b v n : ℕ) (hb : b < n) (hgb : g b = 0) :
    ((List.range n).map (fun i => if b = i then v else g i)).sum
      = v + ((List.range n).map g).sum := by
  induction n with
  | zero => exact absurd hb (Nat.not_lt_zero b)
  | succ n ih =>
    rw [List.range_succ, List.map_append, List.sum_append,
      List.map_append, List.sum_append]
    by_cases hbn : b = n
    · subst hbn
      have hmap : (List.range b).map (fun i => if b = i then v else g i)
          = (List.range b).map g := by
        apply List.map_congr_left
        intro i hi
        have : i < b := List.mem_range.mp hi
        rw [if_neg (by omega)]
      rw [hmap]
      simp [hgb]
      omega
    · have hlt : b < n := by omega
      rw [ih hlt]
      simp [hbn]
      omega

theorem sum_range_mapGet (m : BucketMap) (n : ℕ) (hnd : KeysNodup m)
    (hk : ∀ p ∈ m, p.1 < n) :
    ((List.range n).map (fun i => ((mapGet m i).getD ∅).card)).sum
      = sumSizes m := by
  induction m with
  | nil => simp [mapGet, sumSizes]
  | cons p t ih =>
    obtain ⟨b, s⟩ := p
    have hbn : b < n := hk (b, s) (List.mem_cons_self _ _)
    have hbt : b ∉ mapKeys t := by
      have := hnd
      simp only [KeysNodup, mapKeys, List.map_cons, List.nodup_cons] at this
      exact this.1
    have hnd2 : KeysNodup t := by
      have := hnd
      simp only [KeysNodup, mapKeys, List.map_cons, List.nodup_cons] at this
      exact this.2
    have hk2 : ∀ q ∈ t, q.1 < n := fun q hq => hk q (List.mem_cons_of_mem _ hq)
    have hfun : ∀ i ∈ List.range n, ((mapGet ((b, s) :: t) i).getD ∅).card
        = if b = i then s.card else ((mapGet t i).getD ∅).card := by
      intro i _
      by_cases h : b = i <;> simp [mapGet, h]
    rw [List.map_congr_left hfun,
      sum_range_if _ b s.card n hbn (by rw [mapGet_eq_none t b hbt]; rfl),
      ih hnd2 hk2]
    simp [sumSizes]

/-- C9. Converting a sparse mapping to the dense representation preserves the
total card count: the sizes of the sets of `toBucketSets m` sum to the same
value as the sizes of the sets of `m`. -/
theorem c9_conversion_preserves_total (m : BucketMap) (hnd : KeysNodup m) :
    sumSizesArr (toBucketSets m) = sumSizes m := by
  by_cases hm : m = []
  · subst hm; rfl
  · unfold toBucketSets sumSizesArr
    rw [if_neg hm, List.map_map]
    have hk : ∀ p ∈ m, p.1 < maxKey m + 1 := by
      intro p hp
      have : p.1 ≤ maxKey m :=
        le_foldr_max (mapKeys m) p.1 (List.mem_map_of_mem Prod.fst hp)
      omega
    exact sum_range_mapGet m (maxKey m + 1) hnd hk

/-- Witness for C9 at a concrete input. -/
theorem c9_witness :
    KeysNodup [(2, ({cardX} : Finset Flashcard))]
    ∧ sumSizesArr (toBucketSets [(2, {cardX})]) = sumSizes [(2, {cardX})] :=
  ⟨by unfold KeysNodup mapKeys; decide,
    c9_conversion_preserves_total _ (by unfold KeysNodup mapKeys; decide)⟩

/-! ### C5: the progress reporter -/

theorem bumpCount_sum (l : List (Flashcard × ℕ)) (c : Flashcard) :
    ((bumpCount l c).map Prod.snd).sum = (l.map Prod.snd).sum + 1 := by
  induction l with
  | nil => rfl
  | cons p t ih =>
    obtain ⟨c2, n⟩ := p
    by_cases h : c2 = c
    · simp [bumpCount, h]
      omega
    · simp [bumpCount, h, ih]
      omega

theorem foldl_bump_sum (hist : List HistoryEntry) (acc : List (Flashcard × ℕ)) :
    ((hist.foldl (fun a e => bumpCount a e.card) acc).map Prod.snd).sum
      = (acc.map Prod.snd).sum + hist.length := by
  induction hist generalizing acc with
  | nil => simp
  | cons e t ih =>
    simp only [List.foldl_cons]
    rw [ih, bumpCount_sum]
    simp only [List.length_cons]
    omega

theorem practiceCounts_sum (hist : List HistoryEntry) :
    ((practiceCounts hist).map Prod.snd).sum = hist.length := by
  unfold practiceCounts
  rw [foldl_bump_sum]
  simp

theorem distinctPracticeSum_eq_length (hist : List HistoryEntry) :
    distinctPracticeSum hist = hist.length := by
  unfold distinctPracticeSum
  rw [List.sum_map_count_dedup_eq_length, List.length_map]

/-- C5. `computeProgress` returns the empty-input error exactly when the
history is empty; on a non-empty history it returns the total bucketed card
count, the dense per-bucket counts up to the maximum occupied bucket (a
single entry for index 0 on an empty mapping), and the sum over distinct
practiced cards of their practice counts divided by the total (`0` when the
total is `0`); and the spec's worked example holds. -/
theorem c5_computeProgress_spec :
    (∀ (m : BucketMap) (history : List HistoryEntry),
        computeProgress m history = .error "History must not be empty"
          ↔ history = [])
    ∧ (∀ (m : BucketMap) (history : List HistoryEntry), history ≠ [] →
        computeProgress m history
          = .ok ⟨sumSizes m, bucketCountsSpec m,
              if sumSizes m = 0 then 0
              else (distinctPracticeSum history : ℚ) / (sumSizes m : ℚ)⟩)
    ∧ (∀ m : BucketMap, (bucketCountsSpec m).length = maxKey m + 1
        ∧ ∀ i, i ≤ maxKey m →
            (bucketCountsSpec m).getD i 0 = ((mapGet m i).getD ∅).card)
    ∧ computeProgress [(0, {cardX})] [⟨cardX, 0, .Easy⟩] = .ok ⟨1, [1], 1⟩ := by
  have hok : ∀ (m : BucketMap) (history : List HistoryEntry), history ≠ [] →
      computeProgress m history
        = .ok ⟨sumSizes m, bucketCountsSpec m,
            if sumSizes m = 0 then 0
            else (distinctPracticeSum history : ℚ) / (sumSizes m : ℚ)⟩ := by
    intro m history hne
    unfold computeProgress
    rw [if_neg hne]
    have hsum : ((practiceCounts history).map Prod.snd).sum
        = distinctPracticeSum history := by
      rw [practiceCounts_sum, distinctPracticeSum_eq_length]
    simp only [hsum]
    rfl
  refine ⟨?_, hok, ?_, ?_⟩
  · intro m history
    constructor
    · intro he
      by_contra hne
      rw [hok m history hne] at he
      exact Except.noConfusion he
    · rintro rfl
      rfl
  · intro m
    refine ⟨by simp [bucketCountsSpec], ?_⟩
    intro i hi
    exact getD_range_map _ _ _ _ (by omega)
  · rw [hok [(0, {cardX})] [⟨cardX, 0, .Easy⟩] (by decide)]
    have h1 : sumSizes [(0, {cardX})] = 1 := by decide
    have h2 : bucketCountsSpec [(0, {cardX})] = [1] := by decide
    have h3 : distinctPracticeSum [⟨cardX, 0, .Easy⟩] = 1 := by decide
    rw [h1, h2, h3]
    norm_num

/-- Witness for C5 at the spec's example input. -/
theorem c5_witness :
    computeProgress [(0, {cardX})] [⟨cardX, 0, AnswerDifficulty.Easy⟩]
      = .ok ⟨sumSizes [(0, {cardX})], bucketCountsSpec [(0, {cardX})],
          if sumSizes [(0, {cardX})] = 0 then 0
          else ((distinctPracticeSum [⟨cardX, 0, AnswerDifficulty.Easy⟩] : ℚ)
            / (sumSizes [(0, {cardX})] : ℚ))⟩ :=
  c5_computeProgress_spec.2.1 _ _ (by decide)

/-! ### Lemmas about the progression engine -/

theorem findBucket_mem (m : BucketMap) (card : Flashcard) (b : ℕ)
    (s : Finset Flashcard) (h : findBucket m card = some (b, s)) :
    (b, s) ∈ m ∧ card ∈ s := by
  induction m with
  | nil => cases h
  | cons p t ih =>
    obtain ⟨b1, s1⟩ := p
    by_cases hc : card ∈ s1
    · simp only [findBucket] at h
      rw [if_pos hc] at h
      injection h with h1
      cases h1
      exact ⟨List.mem_cons_self _ _, hc⟩
    · simp only [findBucket] at h
      rw [if_neg hc] at h
      obtain ⟨h1, h2⟩ := ih h
      exact ⟨List.mem_cons_of_mem _ h1, h2⟩

theorem findBucket_none_imp (m : BucketMap) (card : Flashcard)
    (h : findBucket m card = none) : ∀ p ∈ m, card ∉ p.2 := by
  induction m with
  | nil => intro p hp; cases hp
  | cons q t ih =>
    obtain ⟨b1, s1⟩ := q
    by_cases hc : card ∈ s1
    · simp only [findBucket] at h
      rw [if_pos hc] at h
      cases h
    · simp only [findBucket] at h
      rw [if_neg hc] at h
      intro p hp
      rcases List.mem_cons.mp hp with rfl | hp2
      · exact hc
      · exact ih h p hp2

theorem invariant_tail (p : ℕ × Finset Flashcard) (t : BucketMap)
    (h : Invariant (p :: t)) : Invariant t := by
  obtain ⟨h1, h2, h3⟩ := h
  refine ⟨?_, ?_, ?_⟩
  · simp only [KeysNodup, mapKeys, List.map_cons, List.nodup_cons] at h1
    exact h1.2
  · exact fun q hq => h2 q (List.mem_cons_of_mem _ hq)
  · intro c
    have hc := h3 c
    unfold cardCount at hc ⊢
    rw [List.countP_cons] at hc
    omega

theorem invariant_single (b : ℕ) (s : Finset Flashcard) (hs : s ≠ ∅) :
    Invariant [(b, s)] := by
  refine ⟨?_, ?_, ?_⟩
  · simp [KeysNodup, mapKeys]
  · intro p hp
    rcases List.mem_cons.mp hp with rfl | hp2
    · exact hs
    · cases hp2
  · intro c
    unfold cardCount
    rw [List.countP_cons]
    by_cases hcs : c ∈ s <;> simp [hcs]

theorem findBucket_of_invariant (m : BucketMap) (card : Flashcard) (b : ℕ)
    (s : Finset Flashcard) (hinv : Invariant m) (hmem : (b, s) ∈ m)
    (hc : card ∈ s) : findBucket m card = some (b, s) := by
  induction m with
  | nil => cases hmem
  | cons p t ih =>
    obtain ⟨b1, s1⟩ := p
    by_cases hc1 : card ∈ s1
    · simp only [findBucket]
      rw [if_pos hc1]
      rcases List.mem_cons.mp hmem with heq | hmem2
      · cases heq
        rfl
      · exfalso
        have hcount := hinv.2.2 card
        unfold cardCount at hcount
        rw [List.countP_cons_of_pos _ _ (by simpa using hc1)] at hcount
        have hpos : 0 < t.countP (fun p => decide (card ∈ p.2)) :=
          List.countP_pos_iff.mpr ⟨(b, s), hmem2, by simpa using hc⟩
        omega
    · rcases List.mem_cons.mp hmem with heq | hmem2
      · exfalso
        cases heq
        exact hc1 hc
      · simp only [findBucket]
        rw [if_neg hc1]
        exact ih (invariant_tail _ _ hinv) hmem2

theorem mapGet_of_mem_nodup (m : BucketMap) (b : ℕ) (s : Finset Flashcard)
    (hnd : KeysNodup m) (hmem : (b, s) ∈ m) : mapGet m b = some s := by
  induction m with
  | nil => cases hmem
  | cons p t ih =>
    obtain ⟨b1, s1⟩ := p
    have hnd2 : b1 ∉ mapKeys t ∧ KeysNodup t := by
      simp only [KeysNodup, mapKeys, List.map_cons, List.nodup_cons] at hnd
      exact ⟨hnd.1, hnd.2⟩
    rcases List.mem_cons.mp hmem with heq | hmem2
    · cases heq
      simp [mapGet]
    · have hkey : b ∈ mapKeys t := List.mem_map_of_mem Prod.fst hmem2
      have hb : b1 ≠ b := fun h => hnd2.1 (h ▸ hkey)
      simp only [mapGet]
      rw [if_neg hb]
      exact ih hnd2.2 hmem2

theorem removeCard_get_self (m : BucketMap) (card : Flashcard) (b0 : ℕ)
    (s0 : Finset Flashcard) (hnd : KeysNodup m)
    (hfind : findBucket m card = some (b0, s0)) :
    mapGet (removeCard m card) b0
      = if s0.erase card = ∅ then none else some (s0.erase card) := by
  induction m with
  | nil => cases hfind
  | cons p t ih =>
    obtain ⟨b1, s1⟩ := p
    have hnd2 : b1 ∉ mapKeys t ∧ KeysNodup t := by
      simp only [KeysNodup, mapKeys, List.map_cons, List.nodup_cons] at hnd
      exact ⟨hnd.1, hnd.2⟩
    by_cases hc : card ∈ s1
    · simp only [findBucket] at hfind
      rw [if_pos hc] at hfind
      injection hfind with h1
      cases h1
      simp only [removeCard]
      rw [if_pos hc]
      by_cases he : s0.erase card = ∅
      · rw [if_pos he, if_pos he]
        exact mapGet_eq_none t b0 hnd2.1
      · rw [if_neg he, if_neg he]
        simp [mapGet]
    · simp only [findBucket] at hfind
      rw [if_neg hc] at hfind
      have hmem0 := (findBucket_mem t card b0 s0 hfind).1
      have hb1 : b1 ≠ b0 := by
        intro h
        subst h
        exact hnd2.1 (List.mem_map_of_mem Prod.fst hmem0)
      simp only [removeCard]
      rw [if_neg hc]
      simp only [mapGet]
      rw [if_neg hb1]
      exact ih hnd2.2 hfind

theorem removeCard_get_other (m : BucketMap) (card : Flashcard) (b0 : ℕ)
    (s0 : Finset Flashcard) (b : ℕ) (hnd : KeysNodup m)
    (hfind : findBucket m card = some (b0, s0)) (hb : b ≠ b0) :
    mapGet (removeCard m card) b = mapGet m b := by
  induction m with
  | nil => rfl
  | cons p t ih =>
    obtain ⟨b1, s1⟩ := p
    have hnd2 : b1 ∉ mapKeys t ∧ KeysNodup t := by
      simp only [KeysNodup, mapKeys, List.map_cons, List.nodup_cons] at hnd
      exact ⟨hnd.1, hnd.2⟩
    by_cases hc : card ∈ s1
    · simp only [findBucket] at hfind
      rw [if_pos hc] at hfind
      injection hfind with h1
      cases h1
      have hbb : b0 ≠ b := fun h => hb h.symm
      simp only [removeCard]
      rw [if_pos hc]
      by_cases he : s0.erase card = ∅
      · rw [if_pos he]
        simp only [mapGet]
        rw [if_neg hbb]
      · rw [if_neg he]
        simp only [mapGet]
        rw [if_neg hbb, if_neg hbb]
    · simp only [findBucket] at hfind
      rw [if_neg hc] at hfind
      simp only [removeCard]
      rw [if_neg hc]
      simp only [mapGet]
      by_cases hbb : b1 = b
      · rw [if_pos hbb, if_pos hbb]
      · rw [if_neg hbb, if_neg hbb]
        exact ih hnd2.2 hfind

theorem addCard_get_self (m : BucketMap) (b : ℕ) (card : Flashcard) :
    mapGet (addCard m b card) b = some (insert card ((mapGet m b).getD ∅)) := by
  induction m with
  | nil => simp [addCard, mapGet]
  | cons p t ih =>
    obtain ⟨b2, s⟩ := p
    by_cases h : b2 = b
    · simp only [addCard]
      rw [if_pos h]
      simp only [mapGet]
      rw [if_pos h, if_pos h]
      rfl
    · simp only [addCard]
      rw [if_neg h]
      simp only [mapGet]
      rw [if_neg h, if_neg h]
      exact ih

theorem addCard_get_other (m : BucketMap) (b : ℕ) (card : Flashcard) (b2 : ℕ)
    (hb : b2 ≠ b) : mapGet (addCard m b card) b2 = mapGet m b2 := by
  induction m with
  | nil =>
    simp only [addCard, mapGet]
    rw [if_neg (fun h => hb h.symm)]
  | cons p t ih =>
    obtain ⟨b1, s⟩ := p
    by_cases h : b1 = b
    · simp only [addCard]
      rw [if_pos h]
      simp only [mapGet]
      have hne : b1 ≠ b2 := by
        rw [h]
        exact fun hh => hb hh.symm
      rw [if_neg hne, if_neg hne]
    · simp only [addCard]
      rw [if_neg h]
      simp only [mapGet]
      by_cases h2 : b1 = b2
      · rw [if_pos h2, if_pos h2]
      · rw [if_neg h2, if_neg h2]
        exact ih

theorem removeCard_no_empty (m : BucketMap) (card : Flashcard)
    (h : ∀ p ∈ m, p.2 ≠ ∅) : ∀ p ∈ removeCard m card, p.2 ≠ ∅ := by
  induction m with
  | nil => intro p hp; cases hp
  | cons q t ih =>
    obtain ⟨b1, s1⟩ := q
    intro p hp
    by_cases hc : card ∈ s1
    · simp only [removeCard] at hp
      rw [if_pos hc] at hp
      by_cases he : s1.erase card = ∅
      · rw [if_pos he] at hp
        exact h p (List.mem_cons_of_mem _ hp)
      · rw [if_neg he] at hp
        rcases List.mem_cons.mp hp with rfl | hp2
        · exact he
        · exact h p (List.mem_cons_of_mem _ hp2)
    · simp only [removeCard] at hp
      rw [if_neg hc] at hp
      rcases List.mem_cons.mp hp with rfl | hp2
      · exact h (b1, s1) (List.mem_cons_self _ _)
      · exact ih (fun q hq => h q (List.mem_cons_of_mem _ hq)) p hp2

theorem addCard_no_empty (m : BucketMap) (b : ℕ) (card : Flashcard)
    (h : ∀ p ∈ m, p.2 ≠ ∅) : ∀ p ∈ addCard m b card, p.2 ≠ ∅ := by
  induction m with
  | nil =>
    intro p hp
    simp only [addCard] at hp
    rcases List.mem_cons.mp hp with rfl | hp2
    · exact Finset.singleton_ne_empty card
    · cases hp2
  | cons q t ih =>
    obtain ⟨b1, s1⟩ := q
    intro p hp
    simp only [addCard] at hp
    by_cases hb : b1 = b
    · rw [if_pos hb] at hp
      rcases List.mem_cons.mp hp with rfl | hp2
      · exact Finset.insert_ne_empty _ _
      · exact h p (List.mem_cons_of_mem _ hp2)
    · rw [if_neg hb] at hp
      rcases List.mem_cons.mp hp with rfl | hp2
      · exact h (b1, s1) (List.mem_cons_self _ _)
      · exact ih (fun q hq => h q (List.mem_cons_of_mem _ hq)) p hp2

theorem removeCard_not_mem (m : BucketMap) (card : Flashcard)
    (h : cardCount m card ≤ 1) : ∀ p ∈ removeCard m card, card ∉ p.2 := by
  induction m with
  | nil => intro p hp; cases hp
  | cons q t ih =>
    obtain ⟨b1, s1⟩ := q
    unfold cardCount at h
    intro p hp
    by_cases hc : card ∈ s1
    · rw [List.countP_cons_of_pos _ _ (by simpa using hc)] at h
      have ht : t.countP (fun p => decide (card ∈ p.2)) = 0 := by omega
      have ht2 : ∀ q ∈ t, card ∉ q.2 := by
        intro q hq
        have := List.countP_eq_zero.mp ht q hq
        simpa using this
      simp only [removeCard] at hp
      rw [if_pos hc] at hp
      by_cases he : s1.erase card = ∅
      · rw [if_pos he] at hp
        exact ht2 p hp
      · rw [if_neg he] at hp
        rcases List.mem_cons.mp hp with rfl | hp2
        · exact Finset.not_mem_erase card s1
        · exact ht2 p hp2
    · rw [List.countP_cons_of_neg _ _ (by simpa using hc)] at h
      simp only [removeCard] at hp
      rw [if_neg hc] at hp
      rcases List.mem_cons.mp hp with rfl | hp2
      · exact hc
      · exact ih h p hp2

theorem addCard_count (m : BucketMap) (b : ℕ) (card : Flashcard)
    (h : ∀ p ∈ m, card ∉ p.2) :
    cardCount (addCard m b card) card = 1 := by
  induction m with
  | nil =>
    unfold cardCount addCard
    simp [List.countP_cons]
  | cons q t ih =>
    obtain ⟨b1, s1⟩ := q
    have hq1 : card ∉ s1 := h (b1, s1) (List.mem_cons_self _ _)
    have ht : ∀ q ∈ t, card ∉ q.2 := fun q hq => h q (List.mem_cons_of_mem _ hq)
    by_cases hb : b1 = b
    · simp only [addCard]
      rw [if_pos hb]
      unfold cardCount
      rw [List.countP_cons_of_pos _ _ (by simp)]
      have h0 : t.countP (fun p => decide (card ∈ p.2)) = 0 :=
        List.countP_eq_zero.mpr (fun q hq => by simpa using ht q hq)
      rw [h0]
    · simp only [addCard]
      rw [if_neg hb]
      unfold cardCount
      rw [List.countP_cons_of_neg _ _ (by simpa using hq1)]
      have := ih ht
      unfold cardCount at this
      exact this

/-! ### C2, C3, C10, C1: the progression engine -/

/-- C2. For a mapping satisfying the invariant, updating a card currently in
bucket `b` places it in the destination bucket — `0` for Wrong, `b + 1` for
Easy except at the retired bucket `5` which stays at `5`, `max 0 (b - 1)`
for Hard — and removes it from `b` whenever the destination differs. -/
theorem c2_update_moves_card (m : BucketMap) (b : ℕ) (s : Finset Flashcard)
    (card : Flashcard) (d : AnswerDifficulty)
    (hinv : Invariant m) (hmem : (b, s) ∈ m) (hc : card ∈ s) :
    card ∈ (mapGet (update m card d)
        (match d with
          | .Wrong => 0
          | .Easy => if b = 5 then b else b + 1
          | .Hard => max 0 (b - 1))).getD ∅
    ∧ ((match d with
          | .Wrong => 0
          | .Easy => if b = 5 then b else b + 1
          | .Hard => max 0 (b - 1)) ≠ b →
        card ∉ (mapGet (update m card d) b).getD ∅) := by
  have hfind : findBucket m card = some (b, s) :=
    findBucket_of_invariant m card b s hinv hmem hc
  have hdest : (match d with
      | AnswerDifficulty.Wrong => 0
      | AnswerDifficulty.Easy => if b = 5 then b else b + 1
      | AnswerDifficulty.Hard => max 0 (b - 1)) = nextBucket b d := by
    cases d <;> rfl
  have hupd : update m card d
      = addCard (removeCard m card) (nextBucket b d) card := by
    unfold update
    rw [hfind]
  rw [hdest, hupd]
  constructor
  · rw [addCard_get_self]
    exact Finset.mem_insert_self card _
  · intro hne
    rw [addCard_get_other _ _ _ _ (Ne.symm hne)]
    rw [removeCard_get_self m card b s hinv.1 hfind]
    by_cases he : s.erase card = ∅
    · rw [if_pos he]
      simp
    · rw [if_neg he]
      simp

/-- Witness for C2 at a concrete input. -/
theorem c2_witness :
    cardX ∈ (mapGet (update [(3, {cardX})] cardX AnswerDifficulty.Wrong) 0).getD ∅
    ∧ cardX ∉ (mapGet (update [(3, {cardX})] cardX AnswerDifficulty.Wrong) 3).getD ∅ := by
  have h := c2_update_moves_card [(3, {cardX})] 3 {cardX} cardX .Wrong
    (invariant_single 3 {cardX} (by decide)) (List.mem_cons_self _ _) (by decide)
  exact ⟨h.1, h.2 (by decide)⟩

/-- C3 (amended). For a mapping satisfying the invariant, `update` yields a
mapping with no empty bucket set; the practiced card ends in exactly one
bucket when it was bucketed, and the mapping is returned unchanged (leaving
the card in zero buckets) when it was not. -/
theorem c3_update_invariant (m : BucketMap) (card : Flashcard)
    (d : AnswerDifficulty) (hinv : Invariant m) :
    (∀ p ∈ update m card d, p.2 ≠ ∅)
    ∧ (1 ≤ cardCount m card → cardCount (update m card d) card = 1)
    ∧ (cardCount m card = 0 → update m card d = m) := by
  obtain ⟨hnd, hemp, hcnt⟩ := hinv
  cases hfind : findBucket m card with
  | none =>
    have hall := findBucket_none_imp m card hfind
    have h0 : cardCount m card = 0 :=
      List.countP_eq_zero.mpr (fun q hq => by simpa using hall q hq)
    have hupd : update m card d = m := by
      unfold update
      rw [hfind]
    rw [hupd]
    exact ⟨hemp, fun h1 => by omega, fun _ => rfl⟩
  | some p0 =>
    obtain ⟨b0, s0⟩ := p0
    have hupd : update m card d
        = addCard (removeCard m card) (nextBucket b0 d) card := by
      unfold update
      rw [hfind]
    rw [hupd]
    refine ⟨?_, ?_, ?_⟩
    · exact addCard_no_empty _ _ _ (removeCard_no_empty m card hemp)
    · intro _
      exact addCard_count _ _ _ (removeCard_not_mem m card (hcnt card))
    · intro h0
      exfalso
      have hall : ∀ q ∈ m, card ∉ q.2 := by
        intro q hq
        have := List.countP_eq_zero.mp h0 q hq
        simpa using this
      rw [findBucket_eq_none m card hall] at hfind
      cases hfind

/-- Witness for C3 at a concrete input. -/
theorem c3_witness :
    cardCount (update [(0, {cardX})] cardX AnswerDifficulty.Easy) cardX = 1 :=
  (c3_update_invariant [(0, {cardX})] cardX .Easy
    (invariant_single 0 {cardX} (by decide))).2.1 (by decide)

/-- Counterexample to C3 as stated: the empty mapping satisfies the mapping
invariant, yet updating a card that is in no bucket returns the mapping
unchanged, and the card then appears in zero buckets of the result — not
exactly one. -/
theorem c3_counterexample :
    Invariant ([] : BucketMap)
    ∧ update [] cardX AnswerDifficulty.Wrong = []
    ∧ cardCount (update [] cardX AnswerDifficulty.Wrong) cardX = 0
    ∧ cardCount (update [] cardX AnswerDifficulty.Wrong) cardX ≠ 1 := by
  refine ⟨⟨?_, ?_, ?_⟩, rfl, rfl, by decide⟩
  · simp [KeysNodup, mapKeys]
  · intro p hp
    cases hp
  · intro c
    simp [cardCount]

/-- C10. For a mapping satisfying the invariant, `update` leaves every card
other than the practiced one with exactly the bucket membership it had
before: no other card is added, removed, or moved. -/
theorem c10_update_frame (m : BucketMap) (card c2 : Flashcard)
    (d : AnswerDifficulty) (hinv : Invariant m) (hne : c2 ≠ card) (b : ℕ) :
    (c2 ∈ (mapGet (update m card d) b).getD ∅
      ↔ c2 ∈ (mapGet m b).getD ∅) := by
  cases hfind : findBucket m card with
  | none =>
    have hupd : update m card d = m := by
      unfold update
      rw [hfind]
    rw [hupd]
  | some p0 =>
    obtain ⟨b0, s0⟩ := p0
    have hupd : update m card d
        = addCard (removeCard m card) (nextBucket b0 d) card := by
      unfold update
      rw [hfind]
    rw [hupd]
    have hadd : c2 ∈ (mapGet (addCard (removeCard m card) (nextBucket b0 d) card) b).getD ∅
        ↔ c2 ∈ (mapGet (removeCard m card) b).getD ∅ := by
      by_cases hb : b = nextBucket b0 d
      · subst hb
        rw [addCard_get_self]
        simp [Finset.mem_insert, hne]
      · rw [addCard_get_other _ _ _ _ hb]
    have hrem : c2 ∈ (mapGet (removeCard m card) b).getD ∅
        ↔ c2 ∈ (mapGet m b).getD ∅ := by
      by_cases hb : b = b0
      · subst hb
        have hs0 : mapGet m b = some s0 :=
          mapGet_of_mem_nodup m b s0 hinv.1 (findBucket_mem m card b s0 hfind).1
        rw [removeCard_get_self m card b s0 hinv.1 hfind, hs0]
        by_cases he : s0.erase card = ∅
        · rw [if_pos he]
          constructor
          · intro h
            simp at h
          · intro h
            have h2 : c2 ∈ s0.erase card := Finset.mem_erase.mpr ⟨hne, h⟩
            rw [he] at h2
            simp at h2
        · rw [if_neg he]
          simp [Finset.mem_erase, hne]
      · rw [removeCard_get_other m card b0 s0 b hinv.1 hfind hb]
    rw [hadd, hrem]

/-- Witness for C10 at a concrete input. -/
theorem c10_witness :
    (cardY ∈ (mapGet (update [(0, {cardX, cardY})] cardX AnswerDifficulty.Easy) 0).getD ∅
      ↔ cardY ∈ (mapGet [(0, ({cardX, cardY} : Finset Flashcard))] 0).getD ∅) :=
  c10_update_frame [(0, {cardX, cardY})] cardX cardY .Easy
    (invariant_single 0 {cardX, cardY} (by decide)) (by decide) 0

/-- C1 (refuted: code bug). The `new Map(buckets)` copy in `update` is
shallow, so the inner `Set` objects are shared with the caller's mapping and
`cards.delete(card)` writes through a shared reference. On the heap where
the caller's mapping is `{0: {cardX}}`, after `update(m, cardX, Easy)` the
caller's original mapping observes `{0: {}}` — its set was mutated — which
contradicts the claim that the original mapping is left unchanged. -/
theorem c1_update_mutates_caller :
    observe heap0 refMap0 = [(0, {cardX})]
    ∧ observe (updateH heap0 refMap0 cardX AnswerDifficulty.Easy).2 refMap0
        = [(0, ∅)]
    ∧ observe (updateH heap0 refMap0 cardX AnswerDifficulty.Easy).2 refMap0
        ≠ observe heap0 refMap0 :=
  ⟨by decide, by decide, by decide⟩
